import Mathlib

/-
  Verification of the flex save-server (src/server.js): a per-user JSON
  document store over a flat directory, with a sanitizing key function and a
  write-temp-then-rename protocol.

  Modelling conventions:
  * JS strings are modelled as `List Char` (all relevant data is ASCII, so
    UTF-16 code-unit slicing coincides with character slicing).
  * File paths are taken relative to the fixed base directory `SAVE_DIR`
    (every filesystem operation of the server addresses `path.join(SAVE_DIR, …)`,
    so only the final component matters).
  * JSON numbers are modelled as integers (the payloads' numeric fidelity is
    orthogonal to the claims under study).
  * The filesystem is an association list from paths to file contents, and the
    write protocol of `atomicWriteJSON` is modelled as the explicit sequence of
    its filesystem calls, so that intermediate (mid-protocol) states exist in
    the model.
-/

namespace Flex

/-- Character class kept by `sanitizeUser`'s regex replace:
`[a-zA-Z0-9_-]` (src/server.js line 36). -/
def isKeyChar (c : Char) : Bool :=
  (48 ≤ c.toNat && c.toNat ≤ 57) ||    -- 0-9
  (65 ≤ c.toNat && c.toNat ≤ 90) ||    -- A-Z
  (97 ≤ c.toNat && c.toNat ≤ 122) ||   -- a-z
  (c.toNat == 95) ||                   -- _
  (c.toNat == 45)                      -- -

/-- Embedding of `sanitizeUser` (src/server.js lines 34-37):
`String(user).replace(/[^a-zA-Z0-9_-]/g, '').slice(0, 64)`. -/
def sanitizeUser (user : List Char) : List Char :=
  (user.filter isKeyChar).take 64

/-- Characters of the literal `".json"`. -/
def jsonExt : List Char := ['.', 'j', 's', 'o', 'n']

/-- Characters of the literal `".tmp"` appended by `atomicWriteJSON`. -/
def tmpExt : List Char := ['.', 't', 'm', 'p']

/-- Embedding of `getUserFile` (src/server.js lines 38-41), as a path relative
to `SAVE_DIR`: the filename `${sanitizeUser(user)}.json`. -/
def getUserFile (user : List Char) : List Char :=
  sanitizeUser user ++ jsonExt

mutual
/-- JSON values (the documents stored by the server). Numbers are modelled as
integers; see the header comment. -/
inductive Json where
  | null : Json
  | bool (b : Bool) : Json
  | num (n : Int) : Json
  | str (s : List Char) : Json
  | arr (xs : JsonArr) : Json
  | obj (kvs : JsonObj) : Json
/-- A list of JSON array elements. -/
inductive JsonArr where
  | nil : JsonArr
  | cons (v : Json) (vs : JsonArr) : JsonArr
/-- A list of JSON object fields (key, value). -/
inductive JsonObj where
  | nil : JsonObj
  | cons (k : List Char) (v : Json) (kvs : JsonObj) : JsonObj
end

deriving instance DecidableEq for Json, JsonArr, JsonObj

/-- Lower-case hexadecimal digit characters, as produced by JS number/escape
formatting. -/
def hexChar : Nat → Char
  | 0 => '0' | 1 => '1' | 2 => '2' | 3 => '3' | 4 => '4'
  | 5 => '5' | 6 => '6' | 7 => '7' | 8 => '8' | 9 => '9'
  | 10 => 'a' | 11 => 'b' | 12 => 'c' | 13 => 'd' | 14 => 'e'
  | _ => 'f'

/-- Decimal digits, least significant first, computed with explicit fuel so
that the recursion is structural (and hence kernel-reducible); the fuel
argument only needs to dominate the value. -/
def natToRevAux : Nat → Nat → List Char
  | _, 0 => []
  | 0, _+1 => []
  | f+1, m+1 => hexChar ((m+1) % 10) :: natToRevAux f ((m+1) / 10)

/-- Decimal digits of `n`, least significant first (empty for 0). -/
def natToRev (n : Nat) : List Char := natToRevAux n n

/-- Decimal representation of a natural number, as JS prints integers. -/
def natToChars (n : Nat) : List Char :=
  if n = 0 then ['0'] else (natToRev n).reverse

/-- Decimal representation of an integer, as JS prints integral numbers. -/
def intToChars (n : Int) : List Char :=
  if n < 0 then '-' :: natToChars n.natAbs else natToChars n.toNat

/-- The escape sequence `JSON.stringify` emits for one character of a string:
`"` and `\` get a backslash, the named control escapes `\b \t \n \f \r` are
used where they exist, other control characters become `\u00XX`, and
everything else is emitted literally. -/
def escapeChar (c : Char) : List Char :=
  if c.toNat = 34 then ['\\', '"']
  else if c.toNat = 92 then ['\\', '\\']
  else if c.toNat = 8 then ['\\', 'b']
  else if c.toNat = 9 then ['\\', 't']
  else if c.toNat = 10 then ['\\', 'n']
  else if c.toNat = 12 then ['\\', 'f']
  else if c.toNat = 13 then ['\\', 'r']
  else if c.toNat < 32 then
    ['\\', 'u', '0', '0', hexChar (c.toNat / 16), hexChar (c.toNat % 16)]
  else [c]

/-- Escape a whole string body, character by character. -/
def escStr : List Char → List Char
  | [] => []
  | c :: s => escapeChar c ++ escStr s

/-- Indentation emitted by `JSON.stringify(_, null, 2)`: `i` spaces. -/
def indentSp (i : Nat) : List Char := List.replicate i ' '

mutual
/-- Embedding of `JSON.stringify(v, null, 2)` (the serialization used by
`atomicWriteJSON`, src/server.js line 44) at current indentation level `i`. -/
def ser : Nat → Json → List Char
  | _, .null => ['n', 'u', 'l', 'l']
  | _, .bool true => ['t', 'r', 'u', 'e']
  | _, .bool false => ['f', 'a', 'l', 's', 'e']
  | _, .num n => intToChars n
  | _, .str s => '"' :: (escStr s ++ ['"'])
  | _, .arr .nil => ['[', ']']
  | i, .arr (.cons v vs) =>
      '[' :: '\n' ::
        (indentSp (i+2) ++ (ser (i+2) v ++ (itemsSep (i+2) vs ++
          ('\n' :: (indentSp i ++ [']'])))))
  | _, .obj .nil => ['{', '}']
  | i, .obj (.cons k v kvs) =>
      '{' :: '\n' ::
        (indentSp (i+2) ++ ('"' :: (escStr k ++ ('"' :: ':' :: ' ' ::
          (ser (i+2) v ++ (fieldsSep (i+2) kvs ++
            ('\n' :: (indentSp i ++ ['}']))))))))
/-- The text after the first array element: `,\n<indent><element>` repeated. -/
def itemsSep : Nat → JsonArr → List Char
  | _, .nil => []
  | i, .cons v vs => ',' :: '\n' :: (indentSp i ++ (ser i v ++ itemsSep i vs))
/-- The text after the first object field: `,\n<indent>"key": <value>` repeated. -/
def fieldsSep : Nat → JsonObj → List Char
  | _, .nil => []
  | i, .cons k v kvs =>
      ',' :: '\n' :: (indentSp i ++ ('"' :: (escStr k ++ ('"' :: ':' :: ' ' ::
        (ser i v ++ fieldsSep i kvs)))))
end

/-- Models `dataObj ?? {}` (src/server.js line 44): a nullish payload is
replaced by the empty object before serialization. -/
def jsDefault : Json → Json
  | .null => .obj .nil
  | d => d

/-- JS truthiness of a JSON-derived value (`!newData` check,
src/server.js line 99). -/
def jsTruthy : Json → Bool
  | .null => false
  | .bool b => b
  | .num n => !(n == 0)
  | .str s => !(s == [])
  | .arr _ => true
  | .obj _ => true

/-- Whether `typeof v === 'object'` holds for a JSON-derived value
(src/server.js line 99): true for null, arrays and objects. -/
def jsTypeofObject : Json → Bool
  | .null => true
  | .arr _ => true
  | .obj _ => true
  | _ => false

/-- The filesystem under `SAVE_DIR`: an association list from paths (relative
to the base directory) to file contents. -/
abbrev FS := List (List Char × List Char)

/-- Content of the file at `p`, if present. -/
def lookupFS : FS → List Char → Option (List Char)
  | [], _ => none
  | e :: fs, p => if e.1 = p then some e.2 else lookupFS fs p

/-- Delete the file at `p` (`fsp.unlink`). -/
def removeFS : FS → List Char → FS
  | [], _ => []
  | e :: fs, p => if e.1 = p then removeFS fs p else e :: removeFS fs p

/-- Create or overwrite the file at `p` with content `c` (`fsp.writeFile`). -/
def setFS (fs : FS) (p : List Char) (c : List Char) : FS :=
  (p, c) :: removeFS fs p

/-- One filesystem call made by the store. -/
inductive FsAction where
  | write (p : List Char) (content : List Char) : FsAction
  | rename (src dst : List Char) : FsAction
  | remove (p : List Char) : FsAction
deriving DecidableEq

/-- Effect of one filesystem call on the directory state. A rename of a
missing source fails (throws) without changing the state. -/
def applyAction (fs : FS) : FsAction → FS
  | .write p c => setFS fs p c
  | .rename src dst =>
      match lookupFS fs src with
      | some c => setFS (removeFS fs src) dst c
      | none => fs
  | .remove p => removeFS fs p

/-- Effect of a sequence of filesystem calls. -/
def applyActions (fs : FS) (acts : List FsAction) : FS :=
  acts.foldl applyAction fs

/-- Embedding of `atomicWriteJSON(filePath, dataObj)` (src/server.js lines
42-47) as its sequence of filesystem calls: write the full serialization of
`dataObj ?? {}` to `filePath + '.tmp'`, then rename the temp file onto
`filePath`. -/
def atomicWriteJSON (filePath : List Char) (dataObj : Json) : List FsAction :=
  [ .write (filePath ++ tmpExt) (ser 0 (jsDefault dataObj)),
    .rename (filePath ++ tmpExt) filePath ]

/-- An HTTP response: status code and body text. -/
structure Resp where
  status : Nat
  body : List Char
deriving DecidableEq

/-- Body text of the `res.json(null)` reply. -/
def nullBody : List Char := ['n', 'u', 'l', 'l']

/-- Outcome of one `fsp.readFile` call: the data, or a thrown I/O error
carrying a message. -/
inductive ReadOutcome where
  | ok (data : List Char) : ReadOutcome
  | ioError (msg : List Char) : ReadOutcome
deriving DecidableEq

/-- Embedding of the `GET /api/game/load` handler (src/server.js lines 65-78),
parameterized by the result of `fs.existsSync` and by the outcome of the
`fsp.readFile` call: missing user → 400; file absent → 200 `null`; read
error → 500 `Read failed`; otherwise 200 with the raw file text. -/
def loadHandler (user : List Char) (exFile : Bool) (rd : ReadOutcome) : Resp :=
  if user = [] then ⟨400, "Missing user".toList⟩
  else if !exFile then ⟨200, nullBody⟩
  else
    match rd with
    | .ok d => ⟨200, d⟩
    | .ioError _ => ⟨500, "Read failed".toList⟩

/-- Body of `res.json({ error: 'Save not found' })`. -/
def rawNotFoundJson : List Char := "\x7b\"error\":\"Save not found\"\x7d".toList

/-- Embedding of the `GET /api/game/rawsave` handler (src/server.js lines
81-92), parameterized by the outcome of the `fsp.access` probe and of the
`fsp.readFile` call. The whole body sits in one `try`; the single `catch`
answers 404 `Save not found`, so an access failure and a read error are
reported identically. -/
def rawsaveGetHandler (user : List Char) (accessOk : Bool) (rd : ReadOutcome) :
    Resp :=
  if user = [] then ⟨400, "\x7b\"error\":\"Missing user\"\x7d".toList⟩
  else if !accessOk then ⟨404, rawNotFoundJson⟩
  else
    match rd with
    | .ok d => ⟨200, d⟩
    | .ioError _ => ⟨404, rawNotFoundJson⟩

/-- Body of `res.json({ error: 'Missing user' })`. -/
def missingUserJson : List Char := "\x7b\"error\":\"Missing user\"\x7d".toList

/-- Body of `res.json({ error: 'Missing or invalid data' })`. -/
def invalidDataJson : List Char :=
  "\x7b\"error\":\"Missing or invalid data\"\x7d".toList

/-- Body of `res.json({ ok: true, message: 'Save file updated.' })`. -/
def updatedJson : List Char :=
  "\x7b\"ok\":true,\"message\":\"Save file updated.\"\x7d".toList

/-- Body of `res.json({ ok: true, message: 'Save file deleted.' })`. -/
def deletedJson : List Char :=
  "\x7b\"ok\":true,\"message\":\"Save file deleted.\"\x7d".toList

/-- Body of `res.json({ error: 'Save file not found' })`. -/
def delNotFoundJson : List Char :=
  "\x7b\"error\":\"Save file not found\"\x7d".toList

/-- Embedding of the `POST /api/game/save` handler (src/server.js lines
52-62) under error-free disk I/O: missing user → 400, otherwise run the
`atomicWriteJSON` protocol on `getUserFile(user)` and answer 200 `OK`. -/
def savePost (fs : FS) (user : List Char) (body : Json) : Resp × FS :=
  if user = [] then (⟨400, "Missing user".toList⟩, fs)
  else
    (⟨200, "OK".toList⟩,
     applyActions fs (atomicWriteJSON (getUserFile user) body))

/-- Embedding of the `GET /api/game/load` handler (src/server.js lines 65-78)
under error-free disk I/O, reading from the modelled directory state:
`fs.existsSync` is file presence, `fsp.readFile` returns the stored text. -/
def loadFs (fs : FS) (user : List Char) : Resp :=
  if user = [] then ⟨400, "Missing user".toList⟩
  else
    match lookupFS fs (getUserFile user) with
    | none => ⟨200, nullBody⟩
    | some d => ⟨200, d⟩

/-- Embedding of the `PUT /api/game/rawsave` handler (src/server.js lines
95-109) under error-free disk I/O. The body is `none` when `req.body` is
undefined; the guard is `!newData || typeof newData !== 'object'`. -/
def rawsavePut (fs : FS) (user : List Char) (body : Option Json) : Resp × FS :=
  if user = [] then (⟨400, missingUserJson⟩, fs)
  else
    match body with
    | none => (⟨400, invalidDataJson⟩, fs)
    | some j =>
        if jsTruthy j && jsTypeofObject j then
          (⟨200, updatedJson⟩,
           applyActions fs (atomicWriteJSON (getUserFile user) j))
        else (⟨400, invalidDataJson⟩, fs)

/-- Embedding of the `DELETE /api/game/rawsave` handler (src/server.js lines
112-124) under error-free disk I/O: `fsp.unlink` throws `ENOENT` exactly when
the file is absent, which the handler maps to 404. -/
def deleteHandler (fs : FS) (user : List Char) : Resp × FS :=
  if user = [] then (⟨400, missingUserJson⟩, fs)
  else
    match lookupFS fs (getUserFile user) with
    | none => (⟨404, delNotFoundJson⟩, fs)
    | some _ => (⟨200, deletedJson⟩, removeFS fs (getUserFile user))

/-- One entry of the base directory as seen by `fsp.readdir`: its name, and
whether it is a regular file (as opposed to a subdirectory or other kind). -/
structure Dirent where
  name : List Char
  regularFile : Bool
deriving DecidableEq

/-- JS `String.prototype.endsWith`. -/
def endsWithL (s suf : List Char) : Bool :=
  decide (suf.length ≤ s.length) && (s.drop (s.length - suf.length) == suf)

/-- Node's `path.basename(name, ext)` for names without path separators:
the extension is stripped only when the name ends with it and is not equal to
it (`path.basename('.json', '.json')` is `'.json'`). -/
def basenameExt (name ext : List Char) : List Char :=
  if endsWithL name ext && !(name == ext) then
    name.take (name.length - ext.length)
  else name

/-- Embedding of the `GET /api/game/list` handler (src/server.js lines
127-136): `fsp.readdir` yields the entry names (of entries of every kind);
the handler keeps names ending in `.json` and strips that extension with
`path.basename`. -/
def listHandler (entries : List Dirent) : List (List Char) :=
  ((entries.map Dirent.name).filter (fun f => endsWithL f jsonExt)).map
    (fun f => basenameExt f jsonExt)

/-- One store operation reaching the filesystem layer, as decoded by the HTTP
boundary (the user strings are the raw query parameters). -/
inductive StoreOp where
  | save (user : List Char) (body : Json) : StoreOp
  | rawWrite (user : List Char) (body : Option Json) : StoreOp
  | load (user : List Char) : StoreOp
  | delete (user : List Char) : StoreOp
deriving DecidableEq

/-- The filesystem calls an operation performs: writes go through the
`atomicWriteJSON` protocol; validation failures and reads perform none;
delete unlinks the destination. -/
def opActions : StoreOp → List FsAction
  | .save u b => if u = [] then [] else atomicWriteJSON (getUserFile u) b
  | .rawWrite u b =>
      if u = [] then []
      else
        match b with
        | some j =>
            if jsTruthy j && jsTypeofObject j then
              atomicWriteJSON (getUserFile u) j
            else []
        | none => []
  | .load _ => []
  | .delete u => if u = [] then [] else [.remove (getUserFile u)]

/-- All filesystem calls of a sequence of store operations, in order. -/
def traceActions : List StoreOp → List FsAction
  | [] => []
  | op :: ops => opActions op ++ traceActions ops

/-- JSON whitespace, as skipped by `JSON.parse`: space, newline, carriage
return, tab. -/
def isWsC (c : Char) : Bool :=
  c.toNat == 32 || c.toNat == 10 || c.toNat == 13 || c.toNat == 9

/-- Drop leading JSON whitespace. -/
def skipWs : List Char → List Char
  | [] => []
  | c :: r => if isWsC c then skipWs r else c :: r

/-- Decimal digit test. -/
def isDigitC (c : Char) : Bool :=
  48 ≤ c.toNat && c.toNat ≤ 57

/-- Numeric value of a decimal digit character. -/
def digitVal (c : Char) : Nat := c.toNat - 48

/-- Numeric value of a decimal digit string (most significant first). -/
def digitsVal (ds : List Char) : Nat :=
  ds.foldl (fun a c => 10 * a + digitVal c) 0

/-- Split off the longest leading run of decimal digits. -/
def takeDigits : List Char → List Char × List Char
  | [] => ([], [])
  | c :: r =>
      if isDigitC c then
        let p := takeDigits r
        (c :: p.1, p.2)
      else ([], c :: r)

/-- Numeric value of a hexadecimal digit character, if it is one. -/
def hexValC (c : Char) : Option Nat :=
  if 48 ≤ c.toNat && c.toNat ≤ 57 then some (c.toNat - 48)
  else if 97 ≤ c.toNat && c.toNat ≤ 102 then some (c.toNat - 87)
  else if 65 ≤ c.toNat && c.toNat ≤ 70 then some (c.toNat - 55)
  else none

/-- Prepend a decoded character to the result of a string-body parse. -/
def pushC (c : Char) (o : Option (List Char × List Char)) :
    Option (List Char × List Char) :=
  o.map (fun p => (c :: p.1, p.2))

/-- Parse a JSON string body after the opening quote, handling the escape
sequences of the JSON grammar; returns the decoded characters and the text
after the closing quote. -/
def parseStrAux : List Char → Option (List Char × List Char)
  | [] => none
  | c :: r =>
      if c.toNat = 34 then some ([], r)
      else if c.toNat = 92 then
        match r with
        | [] => none
        | e :: r2 =>
            if e.toNat = 34 then pushC '"' (parseStrAux r2)
            else if e.toNat = 92 then pushC '\\' (parseStrAux r2)
            else if e.toNat = 47 then pushC '/' (parseStrAux r2)
            else if e.toNat = 98 then pushC (Char.ofNat 8) (parseStrAux r2)
            else if e.toNat = 116 then pushC (Char.ofNat 9) (parseStrAux r2)
            else if e.toNat = 110 then pushC (Char.ofNat 10) (parseStrAux r2)
            else if e.toNat = 102 then pushC (Char.ofNat 12) (parseStrAux r2)
            else if e.toNat = 114 then pushC (Char.ofNat 13) (parseStrAux r2)
            else if e.toNat = 117 then
              match r2 with
              | h1 :: h2 :: h3 :: h4 :: r3 =>
                  match hexValC h1, hexValC h2, hexValC h3, hexValC h4 with
                  | some a, some b, some c2, some d =>
                      pushC (Char.ofNat (4096 * a + 256 * b + 16 * c2 + d))
                        (parseStrAux r3)
                  | _, _, _, _ => none
              | _ => none
            else none
      else pushC c (parseStrAux r)
termination_by s => s.length
decreasing_by all_goals (simp_all [List.length]; try omega)

mutual
/-- Recursive-descent parse of one JSON value (the client-side `JSON.parse`
against which deep-equality of a loaded document is judged), with fuel
bounding the nesting depth. Assumes leading whitespace already skipped. -/
def parseVal : Nat → List Char → Option (Json × List Char)
  | 0, _ => none
  | _+1, [] => none
  | fuel+1, c :: r =>
      if c.toNat = 110 then
        match r with
        | c1 :: c2 :: c3 :: r2 =>
            if c1.toNat = 117 && c2.toNat = 108 && c3.toNat = 108 then
              some (.null, r2)
            else none
        | _ => none
      else if c.toNat = 116 then
        match r with
        | c1 :: c2 :: c3 :: r2 =>
            if c1.toNat = 114 && c2.toNat = 117 && c3.toNat = 101 then
              some (.bool true, r2)
            else none
        | _ => none
      else if c.toNat = 102 then
        match r with
        | c1 :: c2 :: c3 :: c4 :: r2 =>
            if c1.toNat = 97 && c2.toNat = 108 && c3.toNat = 115 &&
                c4.toNat = 101 then
              some (.bool false, r2)
            else none
        | _ => none
      else if c.toNat = 34 then
        match parseStrAux r with
        | some (s, r2) => some (.str s, r2)
        | none => none
      else if c.toNat = 91 then
        match skipWs r with
        | [] => none
        | c1 :: r2 =>
            if c1.toNat = 93 then some (.arr .nil, r2)
            else
              match parseItems fuel (c1 :: r2) with
              | some (xs, r3) => some (.arr xs, r3)
              | none => none
      else if c.toNat = 123 then
        match skipWs r with
        | [] => none
        | c1 :: r2 =>
            if c1.toNat = 125 then some (.obj .nil, r2)
            else
              match parseFields fuel (c1 :: r2) with
              | some (kvs, r3) => some (.obj kvs, r3)
              | none => none
      else if c.toNat = 45 then
        match takeDigits r with
        | ([], _) => none
        | (ds, r2) => some (.num (-(digitsVal ds : Int)), r2)
      else if isDigitC c then
        match takeDigits (c :: r) with
        | (ds, r2) => some (.num ((digitsVal ds : Int)), r2)
      else none
/-- Parse the elements of a non-empty JSON array, up to and including the
closing bracket. -/
def parseItems : Nat → List Char → Option (JsonArr × List Char)
  | 0, _ => none
  | fuel+1, s =>
      match parseVal fuel s with
      | none => none
      | some (v, r) =>
          match skipWs r with
          | [] => none
          | c :: r2 =>
              if c.toNat = 44 then
                match parseItems fuel (skipWs r2) with
                | some (vs, r3) => some (.cons v vs, r3)
                | none => none
              else if c.toNat = 93 then some (.cons v .nil, r2)
              else none
/-- Parse the fields of a non-empty JSON object, up to and including the
closing brace. -/
def parseFields : Nat → List Char → Option (JsonObj × List Char)
  | 0, _ => none
  | fuel+1, s =>
      match s with
      | [] => none
      | c :: r =>
          if c.toNat = 34 then
            match parseStrAux r with
            | none => none
            | some (k, r1) =>
                match skipWs r1 with
                | [] => none
                | c2 :: r2 =>
                    if c2.toNat = 58 then
                      match parseVal fuel (skipWs r2) with
                      | none => none
                      | some (v, r3) =>
                          match skipWs r3 with
                          | [] => none
                          | c3 :: r4 =>
                              if c3.toNat = 44 then
                                match parseFields fuel (skipWs r4) with
                                | some (kvs, r5) => some (.cons k v kvs, r5)
                                | none => none
                              else if c3.toNat = 125 then
                                some (.cons k v .nil, r4)
                              else none
                    else none
          else none
end

/-- Top-level JSON parse: skip surrounding whitespace, parse one value,
require nothing but whitespace after it. The fuel is one more than the input
length, which bounds any possible nesting depth. -/
def parseJson (s : List Char) : Option Json :=
  match parseVal (s.length + 1) (skipWs s) with
  | some (v, r) => if skipWs r = [] then some v else none
  | none => none

mutual
/-- Fuel needed by `parseVal` on the serialization of a value. -/
def sizeJ : Json → Nat
  | .null => 1
  | .bool _ => 1
  | .num _ => 1
  | .str _ => 1
  | .arr xs => sizeA xs + 1
  | .obj kvs => sizeO kvs + 1
/-- Fuel needed by `parseItems` on serialized array elements. -/
def sizeA : JsonArr → Nat
  | .nil => 0
  | .cons v vs => max (sizeJ v) (sizeA vs) + 1
/-- Fuel needed by `parseFields` on serialized object fields. -/
def sizeO : JsonObj → Nat
  | .nil => 0
  | .cons _ v kvs => max (sizeJ v) (sizeO kvs) + 1
end

/-- Head character of a text is a decimal digit (false for empty text);
parsing a serialized number is unambiguous when the following text does not
begin with a digit. -/
def headIsDigit : List Char → Bool
  | [] => false
  | c :: _ => isDigitC c

/-- The paths targeted by the write calls of an action sequence. -/
def writeTargets (acts : List FsAction) : List (List Char) :=
  acts.filterMap (fun a =>
    match a with
    | .write p _ => some p
    | _ => none)

theorem lookupFS_nil (p : List Char) : lookupFS [] p = none := rfl

theorem lookupFS_setFS_self (fs : FS) (p c : List Char) :
    lookupFS (setFS fs p c) p = some c := by
  simp [lookupFS, setFS]

theorem lookupFS_removeFS (fs : FS) (q p : List Char) :
    lookupFS (removeFS fs q) p = if p = q then none else lookupFS fs p := by
  induction fs with
  | nil => simp [lookupFS, removeFS]
  | cons e fs ih =>
      by_cases hq : e.1 = q <;> by_cases hp : e.1 = p <;>
        by_cases hpq : p = q <;>
          simp_all [lookupFS, removeFS]

theorem lookupFS_setFS_of_mem (fs : FS) (p c q c₂ : List Char)
    (h : lookupFS (setFS fs p c) q = some c₂) :
    c₂ = c ∨ lookupFS fs q = some c₂ := by
  by_cases hpq : p = q
  · subst hpq
    rw [lookupFS_setFS_self] at h
    exact Or.inl (Option.some.inj h).symm
  · right
    simp only [lookupFS, setFS, if_neg hpq] at h
    have h' : lookupFS (removeFS fs p) q = some c₂ := h
    rwa [lookupFS_removeFS, if_neg (fun hc => hpq hc.symm)] at h'

theorem lookupFS_removeFS_sub (fs : FS) (q p c : List Char)
    (h : lookupFS (removeFS fs q) p = some c) : lookupFS fs p = some c := by
  rw [lookupFS_removeFS] at h
  by_cases hpq : p = q
  · simp [hpq] at h
  · rwa [if_neg hpq] at h

/-- Every file content present after one filesystem call either was present
before or is the content of that very write call. -/
theorem applyAction_contents (P : List Char → Prop) (fs : FS) (a : FsAction)
    (hfs : ∀ p c, lookupFS fs p = some c → P c)
    (ha : ∀ q c, a = .write q c → P c)
    (p c : List Char) (h : lookupFS (applyAction fs a) p = some c) : P c := by
  cases a with
  | write q c' =>
      rcases lookupFS_setFS_of_mem fs q c' p c h with rfl | hmem
      · exact ha q c rfl
      · exact hfs p c hmem
  | rename src dst =>
      simp only [applyAction] at h
      cases hsrc : lookupFS fs src with
      | none => rw [hsrc] at h; exact hfs p c h
      | some c0 =>
          rw [hsrc] at h
          rcases lookupFS_setFS_of_mem _ dst c0 p c h with rfl | hmem
          · exact hfs src c hsrc
          · exact hfs p c (lookupFS_removeFS_sub fs src p c hmem)
  | remove q =>
      exact hfs p c (lookupFS_removeFS_sub fs q p c h)

/-- Every file content present after a sequence of filesystem calls either was
present initially or is the content of one of the write calls performed. -/
theorem applyActions_contents (P : List Char → Prop) :
    ∀ (acts : List FsAction) (fs : FS),
    (∀ p c, lookupFS fs p = some c → P c) →
    (∀ q c, FsAction.write q c ∈ acts → P c) →
    ∀ p c, lookupFS (applyActions fs acts) p = some c → P c := by
  intro acts
  induction acts with
  | nil => intro fs hfs _ p c h; exact hfs p c h
  | cons a acts ih =>
      intro fs hfs hacts p c h
      refine ih (applyAction fs a) ?_ ?_ p c h
      · intro p' c' h'
        refine applyAction_contents P fs a hfs ?_ p' c' h'
        intro q c'' ha
        exact hacts q c'' (ha ▸ List.mem_cons_self a acts)
      · intro q c'' hm
        exact hacts q c'' (List.mem_cons_of_mem a hm)

/-- Every write call in the trace of a sequence of store operations carries
the complete serialization of that operation's (defaulted) payload. -/
theorem traceActions_write_content :
    ∀ (ops : List StoreOp) (q c : List Char),
    FsAction.write q c ∈ traceActions ops →
    ∃ b : Json, c = ser 0 (jsDefault b) := by
  intro ops
  induction ops with
  | nil => intro q c h; simp [traceActions] at h
  | cons op ops ih =>
      intro q c h
      rw [traceActions, List.mem_append] at h
      rcases h with h | h
      · cases op with
        | save u b =>
            by_cases hu : u = [] <;>
              simp_all [opActions, atomicWriteJSON]
            exact ⟨b, rfl⟩
        | rawWrite u b =>
            by_cases hu : u = []
            · simp [opActions, hu] at h
            · cases b with
              | none => simp [opActions, hu] at h
              | some j =>
                  by_cases hv : (jsTruthy j && jsTypeofObject j) = true <;>
                    simp_all [opActions, atomicWriteJSON]
                  exact ⟨j, rfl⟩
        | load u => simp [opActions] at h
        | delete u =>
            by_cases hu : u = [] <;> simp_all [opActions]
      · exact ih q c h

/-- Running the write protocol leaves the destination holding exactly the
serialized (defaulted) payload. -/
theorem atomicWriteJSON_lookup (fs : FS) (p : List Char) (d : Json) :
    lookupFS (applyActions fs (atomicWriteJSON p d)) p
      = some (ser 0 (jsDefault d)) := by
  simp only [atomicWriteJSON, applyActions, List.foldl, applyAction]
  rw [lookupFS_setFS_self]
  exact lookupFS_setFS_self _ _ _

theorem char_eq_of_toNat (c : Char) (m : Nat) (h : c.toNat = m) :
    c = Char.ofNat m := by
  rw [← h, Char.ofNat_toNat]

/-- C6: for every raw identifier, `sanitizeUser` yields only characters from
the class `[A-Za-z0-9_-]`, has length at most 64, and (being a total
function) maps an input with no valid character to the empty string. -/
theorem sanitizeUser_safe (r : List Char) :
    (∀ c ∈ sanitizeUser r, isKeyChar c = true) ∧
    (sanitizeUser r).length ≤ 64 ∧
    ((∀ c ∈ r, isKeyChar c = false) → sanitizeUser r = []) := by
  refine ⟨?_, ?_, ?_⟩
  · intro c hc
    exact List.of_mem_filter (List.mem_of_mem_take hc)
  · simp [sanitizeUser] 
  · intro h
    have hf : r.filter isKeyChar = [] := by
      rw [List.filter_eq_nil_iff]
      intro a ha
      simp [h a ha]
    simp [sanitizeUser, hf]

/-- Closed instance of C6 at the concrete raw identifier `"a/b!_-Z9"`. -/
theorem sanitizeUser_safe_witness :
    (∀ c ∈ sanitizeUser ("a/b!_-Z9".toList), isKeyChar c = true) ∧
    (sanitizeUser ("a/b!_-Z9".toList)).length ≤ 64 ∧
    ((∀ c ∈ "a/b!_-Z9".toList, isKeyChar c = false) →
      sanitizeUser ("a/b!_-Z9".toList) = []) :=
  sanitizeUser_safe ("a/b!_-Z9".toList)

/-- C7: `sanitizeUser` is idempotent. -/
theorem sanitizeUser_idempotent (r : List Char) :
    sanitizeUser (sanitizeUser r) = sanitizeUser r := by
  unfold sanitizeUser
  rw [List.filter_eq_self.mpr, List.take_take, min_self]
  intro a ha
  exact List.of_mem_filter (List.mem_of_mem_take ha)

/-- C8: loading a key whose destination file does not exist answers 200 with
the JSON body `null`, not an error status. -/
theorem loadFs_absent (fs : FS) (user : List Char) (hu : user ≠ [])
    (h : lookupFS fs (getUserFile user) = none) :
    loadFs fs user = ⟨200, nullBody⟩ := by
  simp [loadFs, hu, h]

/-- Closed instance of C8: loading the never-saved user `ghost` from the
empty directory answers 200 `null`. -/
theorem loadFs_absent_witness :
    loadFs [] ("ghost".toList) = ⟨200, nullBody⟩ :=
  loadFs_absent [] ("ghost".toList) (by decide) rfl

/-- C5: a RawWrite whose payload is undefined, null, or not of JS object
type is rejected with status 400 and the invalid-data error body before any
filesystem action is performed: the directory state is returned unchanged. -/
theorem rawsavePut_rejects_invalid (fs : FS) (user : List Char)
    (body : Option Json) (hu : user ≠ [])
    (hb : body = none ∨ body = some Json.null ∨
      ∃ j, body = some j ∧ jsTypeofObject j = false) :
    rawsavePut fs user body = (⟨400, invalidDataJson⟩, fs) := by
  rcases hb with rfl | rfl | ⟨j, rfl, hj⟩
  · simp [rawsavePut, hu]
  · simp [rawsavePut, hu, jsTruthy, jsTypeofObject]
  · simp [rawsavePut, hu, hj]

/-- Closed instance of C5, the spec's scenario: a `PUT /api/game/rawsave`
with the string body `"not-an-object"` is answered 400 and writes nothing. -/
theorem rawsavePut_rejects_invalid_witness :
    rawsavePut [] ("bob".toList) (some (.str ("not-an-object".toList)))
      = (⟨400, invalidDataJson⟩, []) :=
  rawsavePut_rejects_invalid [] ("bob".toList)
    (some (.str ("not-an-object".toList))) (by decide)
    (Or.inr (Or.inr ⟨.str ("not-an-object".toList), rfl, rfl⟩))

/-- C9: the RawWrite validity guard accepts every non-null value of JS
object type, arrays included: an array payload is not rejected, the handler
answers 200, and the destination file afterwards holds the array's JSON
serialization. -/
theorem rawsavePut_accepts_array (fs : FS) (user : List Char) (xs : JsonArr)
    (hu : user ≠ []) :
    (rawsavePut fs user (some (.arr xs))).1 = ⟨200, updatedJson⟩ ∧
    lookupFS (rawsavePut fs user (some (.arr xs))).2 (getUserFile user)
      = some (ser 0 (.arr xs)) := by
  constructor
  · simp [rawsavePut, hu, jsTruthy, jsTypeofObject]
  · simp only [rawsavePut, if_neg hu, jsTruthy, jsTypeofObject, Bool.and_self]
    simpa [jsDefault] using
      atomicWriteJSON_lookup fs (getUserFile user) (.arr xs)

/-- Closed instance of C9 at user `bob` and the empty array payload. -/
theorem rawsavePut_accepts_array_witness :
    (rawsavePut [] ("bob".toList) (some (.arr .nil))).1 = ⟨200, updatedJson⟩ ∧
    lookupFS (rawsavePut [] ("bob".toList) (some (.arr .nil))).2
      (getUserFile ("bob".toList)) = some (ser 0 (.arr .nil)) :=
  rawsavePut_accepts_array [] ("bob".toList) .nil (by decide)

/-- C10: the temp path of the write protocol is the destination path with
`.tmp` appended — a deterministic function of the destination alone, not
unique per operation: the protocol's calls are exactly a write to that temp
path followed by a rename of it onto the destination, and two writes to the
same destination (with any payloads) target the identical temp path. -/
theorem atomicWriteJSON_tmp_path (filePath : List Char) (d d' : Json) :
    atomicWriteJSON filePath d =
      [FsAction.write (filePath ++ tmpExt) (ser 0 (jsDefault d)),
       FsAction.rename (filePath ++ tmpExt) filePath] ∧
    writeTargets (atomicWriteJSON filePath d) = [filePath ++ tmpExt] ∧
    writeTargets (atomicWriteJSON filePath d') =
      writeTargets (atomicWriteJSON filePath d) :=
  ⟨rfl, rfl, rfl⟩

/-- C2: in every state reachable by any sequence of store operations —
including the intermediate state inside each write protocol — an existing
destination file `<key>.json` holds the complete serialization of some
previously written (defaulted) payload: the protocol writes the whole
serialization to the temp path and only then renames, so no partially
written content ever appears at the destination. -/
theorem reachable_dest_content (ops : List StoreOp) (pre suf : List FsAction)
    (htr : pre ++ suf = traceActions ops) (k c : List Char)
    (h : lookupFS (applyActions [] pre) (getUserFile k) = some c) :
    ∃ b : Json, c = ser 0 (jsDefault b) ∧ ∃ q, FsAction.write q c ∈ pre := by
  refine applyActions_contents
    (fun c0 => ∃ b : Json, c0 = ser 0 (jsDefault b) ∧
      ∃ q, FsAction.write q c0 ∈ pre) pre [] ?_ ?_ (getUserFile k) c h
  · intro p c0 h0
    rw [lookupFS_nil] at h0
    cases h0
  · intro q c0 hm
    have hmem : FsAction.write q c0 ∈ traceActions ops := by
      rw [← htr]
      exact List.mem_append_left _ hm
    obtain ⟨b, hb⟩ := traceActions_write_content ops q c0 hmem
    exact ⟨b, hb, q, hm⟩

/-- Closed instance of C2: after the full trace of a single save of the
number 5 for `alice`, the destination file holds that payload's complete
serialization. -/
theorem reachable_dest_content_witness :
    ∃ b : Json, ser 0 (Json.num 5) = ser 0 (jsDefault b) ∧
      ∃ q, FsAction.write q (ser 0 (Json.num 5)) ∈
        traceActions [StoreOp.save ("alice".toList) (.num 5)] :=
  reachable_dest_content [StoreOp.save ("alice".toList) (.num 5)]
    (traceActions [StoreOp.save ("alice".toList) (.num 5)]) []
    (List.append_nil _) ("alice".toList) (ser 0 (Json.num 5)) (by decide)

theorem endsWithL_append (s suf : List Char) :
    endsWithL (s ++ suf) suf = true := by
  simp only [endsWithL, List.length_append, Bool.and_eq_true, decide_eq_true_eq,
    beq_iff_eq]
  constructor
  · omega
  · rw [show s.length + suf.length - suf.length = s.length by omega,
      List.drop_left]

/-- C4 counterexample: a directory entry named `sub.json` that is not a
regular file (e.g. a subdirectory) is returned by ListKeys, although the
claim says entries that are not regular files are excluded — on a directory
whose only entry is that subdirectory the claim predicts the empty list. -/
theorem listHandler_includes_nonfiles :
    listHandler [⟨"sub.json".toList, false⟩] = ["sub".toList] ∧
    listHandler [⟨"sub.json".toList, false⟩] ≠ [] := by
  constructor
  · decide
  · decide

/-- C4 amended: ListKeys returns exactly the `.json`-stripped names of the
directory entries of every kind (regular file or not) whose name ends in
`.json`; stripping is Node's `path.basename`, which keeps the name `.json`
whole, and on a well-formed name `<key>.json` with nonempty key it yields
exactly the key. Entries whose names do not end in `.json` are excluded. -/
theorem listHandler_spec (entries : List Dirent) (k : List Char) :
    (k ∈ listHandler entries ↔
      ∃ e ∈ entries, endsWithL e.name jsonExt = true ∧
        k = basenameExt e.name jsonExt) ∧
    (∀ key : List Char, key ≠ [] →
      basenameExt (key ++ jsonExt) jsonExt = key) := by
  constructor
  · simp only [listHandler, List.mem_map, List.mem_filter]
    constructor
    · rintro ⟨f, ⟨⟨e, he, rfl⟩, hend⟩, rfl⟩
      exact ⟨e, he, hend, rfl⟩
    · rintro ⟨e, he, hend, rfl⟩
      exact ⟨e.name, ⟨⟨e, he, rfl⟩, hend⟩, rfl⟩
  · intro key hkey
    have hne : ¬(key ++ jsonExt = jsonExt) := by
      intro hc
      have := congrArg List.length hc
      simp [List.length_append] at this
      exact hkey this
    simp only [basenameExt, endsWithL_append]
    rw [if_pos (by simp [hne])]
    rw [List.length_append,
      show key.length + jsonExt.length - jsonExt.length = key.length by omega,
      List.take_left]

/-- Closed instance of the amended C4 at a one-file directory. -/
theorem listHandler_spec_witness :
    (("alice".toList) ∈ listHandler [⟨"alice.json".toList, true⟩] ↔
      ∃ e ∈ [Dirent.mk ("alice.json".toList) true],
        endsWithL e.name jsonExt = true ∧
        ("alice".toList) = basenameExt e.name jsonExt) ∧
    (∀ key : List Char, key ≠ [] →
      basenameExt (key ++ jsonExt) jsonExt = key) :=
  listHandler_spec [⟨"alice.json".toList, true⟩] ("alice".toList)

/-- C3 counterexample: on an existing file (the access probe succeeds), an
I/O read error makes RawRead answer exactly the 404 not-found response —
byte-identical to its response for an absent file — whereas the claim says a
read error on an existing file is reported distinctly from not-found. -/
theorem rawsaveGet_ioError_not_distinct :
    rawsaveGetHandler ("alice".toList) true (.ioError ("EIO".toList)) =
      rawsaveGetHandler ("alice".toList) false (.ok ("data".toList)) ∧
    rawsaveGetHandler ("alice".toList) true (.ioError ("EIO".toList)) =
      ⟨404, rawNotFoundJson⟩ := by
  constructor
  · decide
  · decide

/-- C3 amended: the two read paths agree on store semantics for successful
reads (200 with the raw text) and differ in how absence is communicated
(200 `null` versus 404 not-found); but they also differ in error semantics:
Load reports an I/O read error on an existing file as a 500 failure,
distinct from its absence response, while RawRead's catch-all maps the same
error to the very 404 not-found response it uses for absence. -/
theorem readPaths_semantics (user d msg : List Char) (hu : user ≠ []) :
    loadHandler user true (.ok d) = ⟨200, d⟩ ∧
    rawsaveGetHandler user true (.ok d) = ⟨200, d⟩ ∧
    loadHandler user false (.ok d) = ⟨200, nullBody⟩ ∧
    rawsaveGetHandler user false (.ok d) = ⟨404, rawNotFoundJson⟩ ∧
    loadHandler user true (.ioError msg) = ⟨500, "Read failed".toList⟩ ∧
    loadHandler user true (.ioError msg) ≠ loadHandler user false (.ok d) ∧
    rawsaveGetHandler user true (.ioError msg) =
      rawsaveGetHandler user false (.ok d) := by
  refine ⟨?_, ?_, ?_, ?_, ?_, ?_, ?_⟩ <;>
    simp [loadHandler, rawsaveGetHandler, hu, nullBody]

/-- Closed instance of the amended C3 at concrete user, data and error. -/
theorem readPaths_semantics_witness :
    loadHandler ("alice".toList) true (.ok ("D".toList)) = ⟨200, "D".toList⟩ ∧
    rawsaveGetHandler ("alice".toList) true (.ok ("D".toList))
      = ⟨200, "D".toList⟩ ∧
    loadHandler ("alice".toList) false (.ok ("D".toList)) = ⟨200, nullBody⟩ ∧
    rawsaveGetHandler ("alice".toList) false (.ok ("D".toList))
      = ⟨404, rawNotFoundJson⟩ ∧
    loadHandler ("alice".toList) true (.ioError ("EIO".toList))
      = ⟨500, "Read failed".toList⟩ ∧
    loadHandler ("alice".toList) true (.ioError ("EIO".toList))
      ≠ loadHandler ("alice".toList) false (.ok ("D".toList)) ∧
    rawsaveGetHandler ("alice".toList) true (.ioError ("EIO".toList)) =
      rawsaveGetHandler ("alice".toList) false (.ok ("D".toList)) :=
  readPaths_semantics ("alice".toList) ("D".toList) ("EIO".toList) (by decide)

theorem char_eq_iff_toNat (c d : Char) : c = d ↔ c.toNat = d.toNat :=
  ⟨fun h => congrArg Char.toNat h,
   fun h => by rw [← Char.ofNat_toNat c, h, Char.ofNat_toNat]⟩

theorem toNat_ofNat_lt32 (m : Nat) (h : m < 32) : (Char.ofNat m).toNat = m := by
  have hv : m.isValidChar := Or.inl (by omega)
  simp [Char.ofNat, hv, Char.ofNatAux, Char.toNat, UInt32.toNat, UInt32.ofNat]

theorem hexChar_isDigit (d : Nat) (h : d < 10) : isDigitC (hexChar d) = true := by
  interval_cases d <;> decide

theorem digitVal_hexChar (d : Nat) (h : d < 10) : digitVal (hexChar d) = d := by
  interval_cases d <;> decide

theorem hexValC_hexChar (d : Nat) (h : d < 16) : hexValC (hexChar d) = some d := by
  interval_cases d <;> decide

theorem isDigitC_bounds (c : Char) (h : isDigitC c = true) :
    48 ≤ c.toNat ∧ c.toNat ≤ 57 := by
  simpa [isDigitC, Bool.and_eq_true, decide_eq_true_eq] using h

theorem digit_head_ok (c : Char) (h : isDigitC c = true) :
    isWsC c = false ∧ c.toNat ≠ 93 := by
  have hb := isDigitC_bounds c h
  constructor
  · simp only [isWsC, Bool.or_eq_false_iff, beq_eq_false_iff_ne, ne_eq]
    omega
  · omega

theorem natToRevAux_irrel (f : Nat) : ∀ (g m : Nat), m ≤ f → m ≤ g →
    natToRevAux f m = natToRevAux g m := by
  induction f with
  | zero =>
      intro g m h h'
      interval_cases m
      cases g <;> simp [natToRevAux]
  | succ f0 ih =>
      intro g m h h'
      cases m with
      | zero => cases g <;> simp [natToRevAux]
      | succ k =>
          cases g with
          | zero => omega
          | succ g0 =>
              simp only [natToRevAux, List.cons.injEq, true_and]
              have hd : (k+1) / 10 < k + 1 :=
                Nat.div_lt_self (by omega) (by omega)
              exact ih g0 ((k+1)/10) (by omega) (by omega)

theorem natToRev_succ (m : Nat) :
    natToRev (m+1) = hexChar ((m+1) % 10) :: natToRev ((m+1) / 10) := by
  show natToRevAux (m+1) (m+1) = _
  simp only [natToRevAux]
  have hd : (m+1) / 10 < m + 1 := Nat.div_lt_self (by omega) (by omega)
  exact congrArg _ (natToRevAux_irrel m ((m+1)/10) ((m+1)/10) (by omega) le_rfl)

theorem natToRev_digits (n : Nat) : ∀ c ∈ natToRev n, isDigitC c = true := by
  induction n using Nat.strong_induction_on with
  | _ n ih =>
      cases n with
      | zero => intro c hc; simp [natToRev, natToRevAux] at hc
      | succ m =>
          intro c hc
          rw [natToRev_succ] at hc
          rcases List.mem_cons.mp hc with rfl | hc
          · exact hexChar_isDigit _ (Nat.mod_lt _ (by omega))
          · exact ih ((m+1)/10) (Nat.div_lt_self (by omega) (by omega)) c hc

theorem natToRev_ne_nil (n : Nat) (h : n ≠ 0) : natToRev n ≠ [] := by
  cases n with
  | zero => exact absurd rfl h
  | succ m => rw [natToRev_succ]; simp

theorem natToChars_ne_nil (n : Nat) : natToChars n ≠ [] := by
  unfold natToChars
  split
  · simp
  · rename_i h
    simpa using natToRev_ne_nil n h

theorem natToChars_digits (n : Nat) : ∀ c ∈ natToChars n, isDigitC c = true := by
  unfold natToChars
  split
  · intro c hc
    simp only [List.mem_singleton] at hc
    subst hc
    decide
  · intro c hc
    rw [List.mem_reverse] at hc
    exact natToRev_digits n c hc

theorem digitsVal_append_digit (xs : List Char) (c : Char) :
    digitsVal (xs ++ [c]) = 10 * digitsVal xs + digitVal c := by
  simp [digitsVal, List.foldl_append]

theorem digitsVal_natToRev (n : Nat) : digitsVal (natToRev n).reverse = n := by
  induction n using Nat.strong_induction_on with
  | _ n ih =>
      cases n with
      | zero => decide
      | succ m =>
          rw [natToRev_succ, List.reverse_cons, digitsVal_append_digit,
            ih ((m+1)/10) (Nat.div_lt_self (by omega) (by omega)),
            digitVal_hexChar _ (Nat.mod_lt _ (by omega))]
          omega

theorem digitsVal_natToChars (n : Nat) : digitsVal (natToChars n) = n := by
  unfold natToChars
  split
  · rename_i h
    subst h
    decide
  · exact digitsVal_natToRev n

theorem takeDigits_append (xs rest : List Char)
    (hxs : ∀ c ∈ xs, isDigitC c = true) (hr : headIsDigit rest = false) :
    takeDigits (xs ++ rest) = (xs, rest) := by
  induction xs with
  | nil =>
      simp only [List.nil_append]
      cases rest with
      | nil => rfl
      | cons c r =>
          simp only [headIsDigit] at hr
          simp [takeDigits, hr]
  | cons c xs ih =>
      have hc : isDigitC c = true := hxs c (List.mem_cons_self _ _)
      simp [takeDigits, hc,
        ih (fun a ha => hxs a (List.mem_cons_of_mem _ ha))]

theorem skipWs_cons_ws (c : Char) (s : List Char) (h : isWsC c = true) :
    skipWs (c :: s) = skipWs s := by
  simp [skipWs, h]

theorem skipWs_cons_nonws (c : Char) (s : List Char) (h : isWsC c = false) :
    skipWs (c :: s) = c :: s := by
  simp [skipWs, h]

theorem skipWs_indent (i : Nat) (s : List Char) :
    skipWs (indentSp i ++ s) = skipWs s := by
  induction i with
  | zero => simp [indentSp]
  | succ j ih =>
      rw [indentSp, List.replicate_succ, List.cons_append,
        skipWs_cons_ws _ _ (by decide)]
      exact ih

theorem ser_head (i : Nat) (d : Json) :
    ∃ c cs, ser i d = c :: cs ∧ isWsC c = false ∧ c.toNat ≠ 93 := by
  cases d with
  | null => exact ⟨'n', _, rfl, by decide, by decide⟩
  | bool b =>
      cases b with
      | false => exact ⟨'f', _, rfl, by decide, by decide⟩
      | true => exact ⟨'t', _, rfl, by decide, by decide⟩
  | num n =>
      by_cases hn : n < 0
      · refine ⟨'-', natToChars n.natAbs, ?_, by decide, by decide⟩
        simp [ser, intToChars, hn]
      · obtain ⟨c, cs, hc⟩ :=
          List.exists_cons_of_ne_nil (natToChars_ne_nil n.toNat)
        have hd : isDigitC c = true :=
          natToChars_digits n.toNat c (hc ▸ List.mem_cons_self _ _)
        obtain ⟨hws, h93⟩ := digit_head_ok c hd
        refine ⟨c, cs, ?_, hws, h93⟩
        simp [ser, intToChars, hn, hc]
  | str s => exact ⟨'"', escStr s ++ ['"'], rfl, by decide, by decide⟩
  | arr xs =>
      cases xs with
      | nil => exact ⟨'[', [']'], rfl, by decide, by decide⟩
      | cons v vs => exact ⟨'[', _, rfl, by decide, by decide⟩
  | obj kvs =>
      cases kvs with
      | nil => exact ⟨'{', ['}'], rfl, by decide, by decide⟩
      | cons k v kvs => exact ⟨'{', _, rfl, by decide, by decide⟩

theorem parseStrAux_escStr (s rest : List Char) :
    parseStrAux (escStr s ++ ('"' :: rest)) = some (s, rest) := by
  induction s with
  | nil =>
      rw [escStr, List.nil_append, parseStrAux.eq_def]
      simp +decide
  | cons c s ih =>
      rw [escStr, List.append_assoc]
      by_cases h34 : c.toNat = 34
      · have hc : c = '"' := (char_eq_iff_toNat c '"').mpr (by rw [h34]; rfl)
        rw [show escapeChar c = ['\\', '"'] from by simp [escapeChar, h34]]
        rw [List.cons_append, List.cons_append, List.nil_append,
          parseStrAux.eq_def]
        simp +decide [pushC, ih, hc]
      · by_cases h92 : c.toNat = 92
        · have hc : c = '\\' :=
            (char_eq_iff_toNat c '\\').mpr (by rw [h92]; rfl)
          rw [show escapeChar c = ['\\', '\\'] from by
            simp [escapeChar, h34, h92]]
          rw [List.cons_append, List.cons_append, List.nil_append,
            parseStrAux.eq_def]
          simp +decide [pushC, ih, hc]
        · by_cases h8 : c.toNat = 8
          · have hc : c = Char.ofNat 8 := char_eq_of_toNat c 8 h8
            rw [show escapeChar c = ['\\', 'b'] from by
              simp [escapeChar, h34, h92, h8]]
            rw [List.cons_append, List.cons_append, List.nil_append,
              parseStrAux.eq_def]
            simp +decide [pushC, ih, hc]
          · by_cases h9 : c.toNat = 9
            · have hc : c = Char.ofNat 9 := char_eq_of_toNat c 9 h9
              rw [show escapeChar c = ['\\', 't'] from by
                simp [escapeChar, h34, h92, h8, h9]]
              rw [List.cons_append, List.cons_append, List.nil_append,
                parseStrAux.eq_def]
              simp +decide [pushC, ih, hc]
            · by_cases h10 : c.toNat = 10
              · have hc : c = Char.ofNat 10 := char_eq_of_toNat c 10 h10
                rw [show escapeChar c = ['\\', 'n'] from by
                  simp [escapeChar, h34, h92, h8, h9, h10]]
                rw [List.cons_append, List.cons_append, List.nil_append,
                  parseStrAux.eq_def]
                simp +decide [pushC, ih, hc]
              · by_cases h12 : c.toNat = 12
                · have hc : c = Char.ofNat 12 := char_eq_of_toNat c 12 h12
                  rw [show escapeChar c = ['\\', 'f'] from by
                    simp [escapeChar, h34, h92, h8, h9, h10, h12]]
                  rw [List.cons_append, List.cons_append, List.nil_append,
                    parseStrAux.eq_def]
                  simp +decide [pushC, ih, hc]
                · by_cases h13 : c.toNat = 13
                  · have hc : c = Char.ofNat 13 := char_eq_of_toNat c 13 h13
                    rw [show escapeChar c = ['\\', 'r'] from by
                      simp [escapeChar, h34, h92, h8, h9, h10, h12, h13]]
                    rw [List.cons_append, List.cons_append, List.nil_append,
                      parseStrAux.eq_def]
                    simp +decide [pushC, ih, hc]
                  · by_cases hlt : c.toNat < 32
                    · rw [show escapeChar c =
                          ['\\', 'u', '0', '0', hexChar (c.toNat / 16),
                            hexChar (c.toNat % 16)] from by
                        simp [escapeChar, h34, h92, h8, h9, h10, h12, h13, hlt]]
                      rw [List.cons_append, List.cons_append, List.cons_append,
                        List.cons_append, List.cons_append, List.cons_append,
                        List.nil_append, parseStrAux.eq_def]
                      simp +decide [show hexValC '0' = some 0 from rfl,
                        hexValC_hexChar (c.toNat / 16)
                          (by omega : c.toNat / 16 < 16),
                        hexValC_hexChar (c.toNat % 16)
                          (by omega : c.toNat % 16 < 16), pushC, ih]
                      refine (char_eq_iff_toNat _ _).mpr ?_
                      rw [toNat_ofNat_lt32 _ (by omega)]
                      omega
                    · rw [show escapeChar c = [c] from by
                        simp [escapeChar, h34, h92, h8, h9, h10, h12, h13, hlt]]
                      rw [List.cons_append, List.nil_append,
                        parseStrAux.eq_def]
                      simp [h34, h92, pushC, ih]

theorem headIsDigit_itemsSep (i j : Nat) (vs : JsonArr) (rest : List Char) :
    headIsDigit (itemsSep i vs ++
      ('\n' :: (indentSp j ++ (']' :: rest)))) = false := by
  cases vs <;> rfl

theorem headIsDigit_fieldsSep (i j : Nat) (kvs : JsonObj) (rest : List Char) :
    headIsDigit (fieldsSep i kvs ++
      ('\n' :: (indentSp j ++ ('}' :: rest)))) = false := by
  cases kvs <;> rfl

theorem parseVal_digits (f : Nat) (xs rest : List Char) (hne : xs ≠ [])
    (hxs : ∀ c ∈ xs, isDigitC c = true) (hr : headIsDigit rest = false) :
    parseVal (f+1) (xs ++ rest) = some (.num ((digitsVal xs : Nat) : Int), rest) := by
  obtain ⟨c, cs, rfl⟩ := List.exists_cons_of_ne_nil hne
  have hc : isDigitC c = true := hxs c (List.mem_cons_self _ _)
  have hb := isDigitC_bounds c hc
  rw [List.cons_append, parseVal.eq_def]
  simp only
  rw [if_neg (by omega : ¬c.toNat = 110), if_neg (by omega : ¬c.toNat = 116),
    if_neg (by omega : ¬c.toNat = 102), if_neg (by omega : ¬c.toNat = 34),
    if_neg (by omega : ¬c.toNat = 91), if_neg (by omega : ¬c.toNat = 123),
    if_neg (by omega : ¬c.toNat = 45), if_pos hc]
  have ht := takeDigits_append (c :: cs) rest hxs hr
  rw [List.cons_append] at ht
  rw [ht]

mutual

theorem parseVal_ser (d : Json) (fuel i : Nat) (rest : List Char)
    (hf : sizeJ d ≤ fuel) (hr : headIsDigit rest = false) :
    parseVal fuel (ser i d ++ rest) = some (d, rest) := by
  obtain ⟨f, rfl⟩ : ∃ f, fuel = f + 1 :=
    ⟨fuel - 1, by cases d <;> (simp [sizeJ] at hf; omega)⟩
  cases d with
  | null =>
      show parseVal (f+1) ('n' :: 'u' :: 'l' :: 'l' :: rest)
        = some (Json.null, rest)
      rw [parseVal.eq_def]
      simp +decide
  | bool b =>
      cases b with
      | true =>
          show parseVal (f+1) ('t' :: 'r' :: 'u' :: 'e' :: rest)
            = some (Json.bool true, rest)
          rw [parseVal.eq_def]
          simp +decide
      | false =>
          show parseVal (f+1) ('f' :: 'a' :: 'l' :: 's' :: 'e' :: rest)
            = some (Json.bool false, rest)
          rw [parseVal.eq_def]
          simp +decide
  | num n =>
      by_cases hn : n < 0
      · have hser : ser i (Json.num n) = '-' :: natToChars n.natAbs := by
          simp [ser, intToChars, hn]
        rw [hser, List.cons_append, parseVal.eq_def]
        simp only
        rw [if_neg (by decide : ¬('-'.toNat = 110)),
          if_neg (by decide : ¬('-'.toNat = 116)),
          if_neg (by decide : ¬('-'.toNat = 102)),
          if_neg (by decide : ¬('-'.toNat = 34)),
          if_neg (by decide : ¬('-'.toNat = 91)),
          if_neg (by decide : ¬('-'.toNat = 123)),
          if_pos (by decide : '-'.toNat = 45)]
        rw [takeDigits_append _ _ (natToChars_digits _) hr]
        obtain ⟨c, cs, hcc⟩ :=
          List.exists_cons_of_ne_nil (natToChars_ne_nil n.natAbs)
        rw [hcc]
        simp only
        rw [← hcc, digitsVal_natToChars]
        have hval : (-(n.natAbs : Int)) = n := by omega
        rw [hval]
      · have hser : ser i (Json.num n) = natToChars n.toNat := by
          simp [ser, intToChars, hn]
        rw [hser, parseVal_digits f _ rest (natToChars_ne_nil _)
          (natToChars_digits _) hr, digitsVal_natToChars]
        have hval : ((n.toNat : Nat) : Int) = n := by omega
        rw [hval]
  | str s =>
      have h1 : ser i (Json.str s) ++ rest
          = '"' :: (escStr s ++ ('"' :: rest)) := by
        show ('"' :: (escStr s ++ ['"'])) ++ rest = _
        simp
      rw [h1, parseVal.eq_def]
      simp +decide [parseStrAux_escStr]
  | arr xs =>
      cases xs with
      | nil =>
          show parseVal (f+1) ('[' :: ']' :: rest) = some (Json.arr .nil, rest)
          rw [parseVal.eq_def]
          simp +decide [skipWs]
      | cons v vs =>
          have h1 : ser i (Json.arr (.cons v vs)) ++ rest =
              '[' :: '\n' :: (indentSp (i+2) ++ (ser (i+2) v ++
                (itemsSep (i+2) vs ++
                  ('\n' :: (indentSp i ++ (']' :: rest)))))) := by
            simp [ser]
          obtain ⟨c, cs, hcons, hws, h93⟩ := ser_head (i+2) v
          have hItems := parseItems_ser v vs f (i+2) i rest
            (by simp only [sizeJ] at hf; omega)
          rw [hcons, List.cons_append] at hItems
          rw [h1, parseVal.eq_def]
          simp only
          rw [if_neg (by decide : ¬('['.toNat = 110)),
            if_neg (by decide : ¬('['.toNat = 116)),
            if_neg (by decide : ¬('['.toNat = 102)),
            if_neg (by decide : ¬('['.toNat = 34)),
            if_pos (by decide : '['.toNat = 91)]
          rw [skipWs_cons_ws _ _ (by decide), skipWs_indent, hcons,
            List.cons_append, skipWs_cons_nonws _ _ hws]
          simp only
          rw [if_neg h93, hItems]
  | obj kvs =>
      cases kvs with
      | nil =>
          show parseVal (f+1) ('{' :: '}' :: rest) = some (Json.obj .nil, rest)
          rw [parseVal.eq_def]
          simp +decide [skipWs]
      | cons k v kvs =>
          have h1 : ser i (Json.obj (.cons k v kvs)) ++ rest =
              '{' :: '\n' :: (indentSp (i+2) ++ ('"' :: (escStr k ++
                ('"' :: ':' :: ' ' :: (ser (i+2) v ++
                  (fieldsSep (i+2) kvs ++
                    ('\n' :: (indentSp i ++ ('}' :: rest))))))))) := by
            simp [ser]
          have hFields := parseFields_ser k v kvs f (i+2) i rest
            (by simp only [sizeJ] at hf; omega)
          rw [h1, parseVal.eq_def]
          simp only
          rw [if_neg (by decide : ¬('{'.toNat = 110)),
            if_neg (by decide : ¬('{'.toNat = 116)),
            if_neg (by decide : ¬('{'.toNat = 102)),
            if_neg (by decide : ¬('{'.toNat = 34)),
            if_neg (by decide : ¬('{'.toNat = 91)),
            if_pos (by decide : '{'.toNat = 123)]
          rw [skipWs_cons_ws _ _ (by decide), skipWs_indent,
            skipWs_cons_nonws _ _ (by decide : isWsC '"' = false)]
          simp only
          rw [if_neg (by decide : ¬('"'.toNat = 125)), hFields]
  termination_by sizeOf d

theorem parseItems_ser (v : Json) (vs : JsonArr) (fuel i j : Nat)
    (rest : List Char) (hf : sizeA (.cons v vs) ≤ fuel) :
    parseItems fuel (ser i v ++ (itemsSep i vs ++
      ('\n' :: (indentSp j ++ (']' :: rest))))) = some (.cons v vs, rest) := by
  obtain ⟨f, rfl⟩ : ∃ f, fuel = f + 1 :=
    ⟨fuel - 1, by simp [sizeA] at hf; omega⟩
  rw [parseItems.eq_def]
  simp only
  rw [parseVal_ser v f i _ (by simp only [sizeA] at hf; omega)
    (headIsDigit_itemsSep i j vs rest)]
  simp only
  cases vs with
  | nil =>
      show (match skipWs (List.nil ++ ('\n' :: (indentSp j ++ (']' :: rest))))
          with
        | [] => none
        | c :: r2 =>
          if c.toNat = 44 then
            match parseItems f (skipWs r2) with
            | some (vs2, r3) => some (JsonArr.cons v vs2, r3)
            | none => none
          else if c.toNat = 93 then some (JsonArr.cons v .nil, r2)
          else none) = some (JsonArr.cons v .nil, rest)
      rw [List.nil_append, skipWs_cons_ws _ _ (by decide), skipWs_indent,
        skipWs_cons_nonws _ _ (by decide : isWsC ']' = false)]
      simp +decide
  | cons w ws =>
      obtain ⟨c, cs, hcons, hws, h93⟩ := ser_head i w
      have hIH := parseItems_ser w ws f i j rest
        (by simp only [sizeA] at hf ⊢; omega)
      rw [hcons, List.cons_append] at hIH
      rw [show itemsSep i (JsonArr.cons w ws) ++
          ('\n' :: (indentSp j ++ (']' :: rest))) =
          ',' :: '\n' :: (indentSp i ++ (ser i w ++ (itemsSep i ws ++
            ('\n' :: (indentSp j ++ (']' :: rest)))))) from by
        simp [itemsSep]]
      rw [skipWs_cons_nonws _ _ (by decide : isWsC ',' = false)]
      simp only
      rw [if_pos (by decide : ','.toNat = 44)]
      rw [skipWs_cons_ws _ _ (by decide), skipWs_indent, hcons,
        List.cons_append, skipWs_cons_nonws _ _ hws, hIH]
  termination_by sizeOf v + sizeOf vs + 1

theorem parseFields_ser (k : List Char) (v : Json) (kvs : JsonObj)
    (fuel i j : Nat) (rest : List Char) (hf : sizeO (.cons k v kvs) ≤ fuel) :
    parseFields fuel ('"' :: (escStr k ++ ('"' :: ':' :: ' ' ::
      (ser i v ++ (fieldsSep i kvs ++
        ('\n' :: (indentSp j ++ ('}' :: rest))))))))
      = some (.cons k v kvs, rest) := by
  obtain ⟨f, rfl⟩ : ∃ f, fuel = f + 1 :=
    ⟨fuel - 1, by simp [sizeO] at hf; omega⟩
  rw [parseFields.eq_def]
  simp only
  rw [if_pos (by decide : '"'.toNat = 34), parseStrAux_escStr]
  simp only
  rw [skipWs_cons_nonws _ _ (by decide : isWsC ':' = false)]
  simp only
  rw [if_pos (by decide : ':'.toNat = 58)]
  rw [skipWs_cons_ws _ _ (by decide)]
  obtain ⟨c, cs, hcons, hws, h93⟩ := ser_head i v
  rw [hcons, List.cons_append, skipWs_cons_nonws _ _ hws, ← List.cons_append,
    ← hcons]
  rw [parseVal_ser v f i _ (by simp only [sizeO] at hf; omega)
    (headIsDigit_fieldsSep i j kvs rest)]
  simp only
  cases kvs with
  | nil =>
      rw [show fieldsSep i JsonObj.nil ++
          ('\n' :: (indentSp j ++ ('}' :: rest))) =
          '\n' :: (indentSp j ++ ('}' :: rest)) from by simp [fieldsSep]]
      rw [skipWs_cons_ws _ _ (by decide), skipWs_indent,
        skipWs_cons_nonws _ _ (by decide : isWsC '}' = false)]
      simp +decide
  | cons k2 v2 kvs2 =>
      have hIH := parseFields_ser k2 v2 kvs2 f i j rest
        (by simp only [sizeO] at hf ⊢; omega)
      rw [show fieldsSep i (JsonObj.cons k2 v2 kvs2) ++
          ('\n' :: (indentSp j ++ ('}' :: rest))) =
          ',' :: '\n' :: (indentSp i ++ ('"' :: (escStr k2 ++
            ('"' :: ':' :: ' ' :: (ser i v2 ++ (fieldsSep i kvs2 ++
              ('\n' :: (indentSp j ++ ('}' :: rest))))))))) from by
        simp [fieldsSep]]
      rw [skipWs_cons_nonws _ _ (by decide : isWsC ',' = false)]
      simp only
      rw [if_pos (by decide : ','.toNat = 44)]
      rw [skipWs_cons_ws _ _ (by decide), skipWs_indent,
        skipWs_cons_nonws _ _ (by decide : isWsC '"' = false), hIH]
  termination_by sizeOf v + sizeOf kvs + 1

end

mutual

theorem sizeJ_le_len (d : Json) (i : Nat) : sizeJ d ≤ (ser i d).length := by
  cases d with
  | null => simp [sizeJ, ser]
  | bool b => cases b <;> simp [sizeJ, ser]
  | num n => simp [sizeJ, ser]; exact Nat.one_le_iff_ne_zero.mpr (by
      simp [List.length_eq_zero]
      by_cases hn : n < 0 <;> simp [intToChars, hn, natToChars_ne_nil])
  | str s => simp [sizeJ, ser]
  | arr xs =>
      cases xs with
      | nil => simp [sizeJ, sizeA, ser]
      | cons v vs =>
          have h1 := sizeJ_le_len v (i+2)
          have h2 := sizeA_le_len vs (i+2)
          simp only [sizeJ, sizeA, ser, List.length_cons, List.length_append,
            indentSp, List.length_replicate]
          omega
  | obj kvs =>
      cases kvs with
      | nil => simp [sizeJ, sizeO, ser]
      | cons k v kvs =>
          have h1 := sizeJ_le_len v (i+2)
          have h2 := sizeO_le_len kvs (i+2)
          simp only [sizeJ, sizeO, ser, List.length_cons, List.length_append,
            indentSp, List.length_replicate]
          omega
  termination_by sizeOf d

theorem sizeA_le_len (vs : JsonArr) (i : Nat) :
    sizeA vs ≤ (itemsSep i vs).length + 1 := by
  cases vs with
  | nil => simp [sizeA, itemsSep]
  | cons v vs =>
      have h1 := sizeJ_le_len v i
      have h2 := sizeA_le_len vs i
      simp only [sizeA, itemsSep, List.length_cons, List.length_append,
        indentSp, List.length_replicate]
      omega
  termination_by sizeOf vs + 1

theorem sizeO_le_len (kvs : JsonObj) (i : Nat) :
    sizeO kvs ≤ (fieldsSep i kvs).length + 1 := by
  cases kvs with
  | nil => simp [sizeO, fieldsSep]
  | cons k v kvs =>
      have h1 := sizeJ_le_len v i
      have h2 := sizeO_le_len kvs i
      simp only [sizeO, fieldsSep, List.length_cons, List.length_append,
        indentSp, List.length_replicate]
      omega
  termination_by sizeOf kvs + 1

end

/-- Parsing inverts serialization: the client-side `JSON.parse` of the exact
text `JSON.stringify(d, null, 2)` recovers the document `d`. -/
theorem parseJson_ser (d : Json) : parseJson (ser 0 d) = some d := by
  unfold parseJson
  obtain ⟨c, cs, hcons, hws, _⟩ := ser_head 0 d
  rw [hcons, skipWs_cons_nonws _ _ hws, ← hcons]
  have hfuel : sizeJ d ≤ (ser 0 d).length + 1 :=
    le_trans (sizeJ_le_len d 0) (by omega)
  have h := parseVal_ser d ((ser 0 d).length + 1) 0 [] hfuel rfl
  rw [List.append_nil] at h
  rw [h]
  simp [skipWs]

/-- C1 counterexample: the JSON document `null` is JSON-serializable, but
saving it for `alice` and loading it back yields the document `{}` — because
`atomicWriteJSON` serializes `dataObj ?? {}`, replacing a null payload by the
empty object — which is not deep-equal to `null`. -/
theorem save_null_load_not_null :
    parseJson ((loadFs (savePost [] ("alice".toList) Json.null).2
      ("alice".toList)).body) = some (Json.obj .nil) ∧
    some (Json.obj .nil) ≠ some Json.null := by
  constructor
  · decide
  · decide

/-- C1 amended: for every starting directory state, every nonempty user key
and every non-null JSON document, Save then Load (with no intervening
operation) answers 200 with exactly the serialized document, and that
response parses back — deep-equality of JSON texts — to the saved document
itself. (The document `null` is excluded: the write protocol's `?? {}`
default replaces it by the empty object.) -/
theorem save_load_roundTrip (fs : FS) (user : List Char) (doc : Json)
    (hu : user ≠ []) (hd : doc ≠ Json.null) :
    loadFs (savePost fs user doc).2 user = ⟨200, ser 0 doc⟩ ∧
    parseJson (ser 0 doc) = some doc := by
  constructor
  · have hjd : jsDefault doc = doc := by
      cases doc <;> simp_all [jsDefault]
    simp only [savePost, if_neg hu]
    simp only [loadFs, if_neg hu]
    rw [atomicWriteJSON_lookup, hjd]
  · exact parseJson_ser doc

/-- Closed instance of the amended C1: save the document 7 for `alice`, load
it back, obtain `7` again. -/
theorem save_load_roundTrip_witness :
    loadFs (savePost [] ("alice".toList) (Json.num 7)).2 ("alice".toList)
      = ⟨200, ser 0 (Json.num 7)⟩ ∧
    parseJson (ser 0 (Json.num 7)) = some (Json.num 7) :=
  save_load_roundTrip [] ("alice".toList) (Json.num 7) (by decide) (by decide)

end Flex
